import Mathlib

/-!
Verification of the docker-compose log manager
(`internal/engine/docker_compose_log_manager.go`).

We shallowly embed the manager's state and its operations:

* `diff` reconciles the desired docker-compose services against the map of
  active log watches, returning a setup list and a teardown list.
* `OnChange` runs `diff`, cancels every teardown watch, then launches one
  streaming task per setup watch; we record this as an event trace.
* `shouldFilterDCLog` and the two writers filter noise chunks.

Modelling choices:

* `time.Time` becomes `Int` (nanoseconds since the epoch); `time.Unix(0, 0)`
  is `epoch = 0`.
* A `context.Context` is observed by `diff` only through `ctx.Err() == nil`,
  so a watch carries `ctxErr : Bool` (`true` means the context has an error,
  i.e. the watch was cancelled).
* The capacity-1 channel `terminationTime` is modelled by its content, an
  `Option Time` (`none` = empty).  The block-receive `<-existing.terminationTime`
  on an empty channel blocks, so `diff` returns an `Option`: `none` models the
  blocked call.
* Go maps (`m.watches`, `state.ManifestStates`) become association lists;
  the list order stands in for the (unspecified) map iteration order.
* A byte slice `[]byte` becomes `List Nat`.
-/

abbrev ManifestName := String

abbrev Time := Int

/-- The epoch `time.Unix(0, 0)`: default start time for a brand-new watch. -/
def epoch : Time := 0

/-- The docker-compose part of a manifest (`Manifest.DCInfo()`). -/
structure DCInfo where
  configPath : String
deriving Repr, DecidableEq

/-- The slice of `model.Manifest` that `diff` reads: its name, whether it is a
docker-compose manifest (`IsDC()`), and its `DCInfo()`. -/
structure Manifest where
  name : ManifestName
  isDC : Bool
  dcInfo : DCInfo
deriving Repr, DecidableEq

/-- The slice of `store.ManifestState` that `diff` reads. -/
structure ManifestState where
  manifest : Manifest
deriving Repr, DecidableEq

/-- The slice of the engine state that `diff` reads: the `WatchMounts` flag and
the `ManifestStates` map, as an association list keyed by manifest name. -/
structure EngineState where
  watchMounts : Bool
  manifestStates : List (ManifestName × ManifestState)
deriving Repr, DecidableEq

/-- One active log watch (`dockerComposeLogWatch`).  `ctxErr` is whether the
watch's context has an error (`ctx.Err() != nil`); `terminationTime` is the
content of the capacity-1 channel (`none` = empty). -/
structure DCLogWatch where
  ctxErr : Bool
  name : ManifestName
  dcConfigPath : String
  startWatchTime : Time
  terminationTime : Option Time
deriving Repr, DecidableEq

/-- The map `m.watches : map[model.ManifestName]dockerComposeLogWatch`. -/
abbrev Watches := List (ManifestName × DCLogWatch)

/-- Go map read `m.watches[k]`. -/
def lookupWatch (ws : Watches) (k : ManifestName) : Option DCLogWatch :=
  match ws with
  | [] => none
  | (k2, w) :: rest => if k2 = k then some w else lookupWatch rest k

/-- Go map write `m.watches[k] = w`: replaces the entry in place, or appends. -/
def insertWatch (ws : Watches) (k : ManifestName) (w : DCLogWatch) : Watches :=
  match ws with
  | [] => [(k, w)]
  | (k2, w2) :: rest => if k2 = k then (k, w) :: rest else (k2, w2) :: insertWatch rest k w

/-- The watch record that `diff` builds for manifest `m` with start time `t`:
a fresh (uncancelled) context and an empty termination channel. -/
def mkWatch (m : Manifest) (t : Time) : DCLogWatch :=
  { ctxErr := false
    name := m.name
    dcConfigPath := m.dcInfo.configPath
    startWatchTime := t
    terminationTime := none }

/-- What the setup loop of `diff` does with one desired docker-compose
manifest name: skip it, block, or start a new watch from a given time. -/
inductive WatchDecision where
  | skip
  | blocked
  | start (resumeFrom : Time)
deriving Repr, DecidableEq

/-- Lines 45-56 of `diff`: look up the existing watch; if it is still active
(`ctx.Err() == nil`) skip; otherwise block-receive the termination time and
restart from it; with no existing watch, start from the epoch. -/
def decideWatch (ws : Watches) (n : ManifestName) : WatchDecision :=
  match lookupWatch ws n with
  | some existing =>
    if existing.ctxErr = false then .skip
    else
      match existing.terminationTime with
      | none => .blocked
      | some t => .start t
  | none => .start epoch

/-- The first loop of `diff` (lines 39-69): walk the manifest states, skip
non-docker-compose manifests, and for each docker-compose manifest either keep
the active watch or create a replacement, inserting it into the map and
appending it to `setup`.  Returns `none` when a block-receive would block. -/
def diffSetup (ws : Watches) :
    List (ManifestName × ManifestState) → Option (List DCLogWatch × Watches)
  | [] => some ([], ws)
  | (_, ms) :: rest =>
    if ms.manifest.isDC = false then
      diffSetup ws rest
    else
      match decideWatch ws ms.manifest.name with
      | .skip => diffSetup ws rest
      | .blocked => none
      | .start t =>
        let w := mkWatch ms.manifest t
        match diffSetup (insertWatch ws ms.manifest.name w) rest with
        | none => none
        | some (setup, ws2) => some (w :: setup, ws2)

/-- Go map presence test `_, ok := m[k]` over a key list. -/
def memName (keys : List ManifestName) (n : ManifestName) : Bool :=
  match keys with
  | [] => false
  | k :: rest => if k = n then true else memName rest n

/-- The second loop of `diff` (lines 71-78): every watch whose key is absent
from `state.ManifestStates` is deleted from the map and appended to
`teardown`. -/
def diffTeardown (stateKeys : List ManifestName) (ws : Watches) :
    List DCLogWatch × Watches :=
  match ws with
  | [] => ([], [])
  | (k, w) :: rest =>
    let r := diffTeardown stateKeys rest
    if memName stateKeys k then (r.1, (k, w) :: r.2)
    else (w :: r.1, r.2)

/-- The result of one `diff` call: the setup list, the teardown list, and the
watch map after the call. -/
structure DiffResult where
  setup : List DCLogWatch
  teardown : List DCLogWatch
  watches : Watches
deriving Repr, DecidableEq

/-- Method `DockerComposeLogManager.diff` (lines 30-81).  `none` models a `diff` call
that blocks on an empty termination channel. -/
def diff (state : EngineState) (ws : Watches) : Option DiffResult :=
  if state.watchMounts = false then some ⟨[], [], ws⟩
  else
    match diffSetup ws state.manifestStates with
    | none => none
    | some (setup, ws2) =>
      let td := diffTeardown (state.manifestStates.map Prod.fst) ws2
      some ⟨setup, td.1, td.2⟩

/-- The externally visible actions of `OnChange`: invoking a teardown watch's
cancellation handle, and launching (`go consumeLogs`) a setup watch's task. -/
inductive LogManagerEvent where
  | cancelWatch (name : ManifestName)
  | launchTask (name : ManifestName)
deriving Repr, DecidableEq

def LogManagerEvent.isCancel : LogManagerEvent → Bool
  | .cancelWatch _ => true
  | .launchTask _ => false

def LogManagerEvent.isLaunch : LogManagerEvent → Bool
  | .cancelWatch _ => false
  | .launchTask _ => true

/-- Method `DockerComposeLogManager.OnChange` (lines 83-92) as an event trace: first
cancel every teardown watch, then launch one task per setup watch. -/
def onChange (state : EngineState) (ws : Watches) :
    Option (List LogManagerEvent × Watches) :=
  match diff state ws with
  | none => none
  | some r =>
    some (r.teardown.map (fun w => .cancelWatch w.name) ++
            r.setup.map (fun w => .launchTask w.name),
          r.watches)

/-- The bytes of the noise banner `"Attaching to "`. -/
def attachingToBytes : List Nat := "Attaching to ".toList.map Char.toNat

/-- Predicate `shouldFilterDCLog` (lines 158-164): drop a chunk that begins with the
`"Attaching to "` banner. -/
def shouldFilterDCLog (p : List Nat) : Bool :=
  if attachingToBytes.isPrefixOf p then true
  else false

/-- The event `DockerComposeLogAction` dispatched to the store. -/
structure DockerComposeLogAction where
  manifestName : ManifestName
  log : List Nat
deriving Repr, DecidableEq

/-- Method `DockerComposeLogActionWriter.Write` (lines 145-154).  The first component
is the Go return value `(n, err)`; the second is the action dispatched to the
store (`none` = the store was not invoked).  `append([]byte{}, p...)` is the
copy `[] ++ p`. -/
def actionWriterWrite (manifestName : ManifestName) (p : List Nat) :
    (Nat × Option String) × Option DockerComposeLogAction :=
  if shouldFilterDCLog p then ((p.length, none), none)
  else ((p.length, none), some ⟨manifestName, [] ++ p⟩)

/-- Method `DockerComposeGlobalLogWriter.Write` (lines 170-176).  `sink` is the
underlying display writer; the second component records the chunk forwarded to
it (`none` = the sink was not invoked). -/
def globalWriterWrite (sink : List Nat → Nat × Option String) (p : List Nat) :
    (Nat × Option String) × Option (List Nat) :=
  if shouldFilterDCLog p then ((p.length, none), none)
  else (sink p, some p)

/-- Every stored watch sits under its own name as key; `diff` maintains this
because it always inserts `mkWatch m t` under key `m.name`. -/
def watchesWellKeyed (ws : Watches) : Prop :=
  ∀ p ∈ ws, p.1 = p.2.name

instance : DecidablePred watchesWellKeyed := fun ws =>
  inferInstanceAs (Decidable (∀ p ∈ ws, p.1 = p.2.name))

/-- The `ManifestStates` map keys each state under its manifest's name. -/
def statesWellKeyed (l : List (ManifestName × ManifestState)) : Prop :=
  ∀ p ∈ l, p.1 = p.2.manifest.name

instance : DecidablePred statesWellKeyed := fun l =>
  inferInstanceAs (Decidable (∀ p ∈ l, p.1 = p.2.manifest.name))

/-! ### Lemmas about the map operations -/

theorem memName_iff (keys : List ManifestName) (n : ManifestName) :
    memName keys n = true ↔ n ∈ keys := by
  induction keys with
  | nil => simp [memName]
  | cons k rest ih =>
    by_cases h : k = n
    · subst h; simp [memName]
    · simp only [memName, if_neg h, ih, List.mem_cons]
      constructor
      · intro hm; exact Or.inr hm
      · intro hm
        rcases hm with he | hm
        · exact absurd he.symm h
        · exact hm

theorem lookupWatch_insertWatch (ws : Watches) (k n : ManifestName) (w : DCLogWatch) :
    lookupWatch (insertWatch ws k w) n = if k = n then some w else lookupWatch ws n := by
  induction ws with
  | nil =>
    by_cases hkn : k = n <;> simp [insertWatch, lookupWatch, hkn]
  | cons p rest ih =>
    obtain ⟨k2, w2⟩ := p
    by_cases h2 : k2 = k
    · subst h2
      by_cases hkn : k2 = n <;> simp [insertWatch, lookupWatch, hkn]
    · by_cases h2n : k2 = n
      · subst h2n
        have hkn : ¬ k = k2 := fun he => h2 he.symm
        simp [insertWatch, lookupWatch, h2, hkn]
      · simp [insertWatch, lookupWatch, h2, h2n, ih]

theorem decideWatch_insert_ne (ws : Watches) (k n : ManifestName) (w : DCLogWatch)
    (h : k ≠ n) : decideWatch (insertWatch ws k w) n = decideWatch ws n := by
  simp [decideWatch, lookupWatch_insertWatch, h]

theorem watchesWellKeyed_cons {k : ManifestName} {w : DCLogWatch} {rest : Watches}
    (h : watchesWellKeyed ((k, w) :: rest)) :
    k = w.name ∧ watchesWellKeyed rest :=
  ⟨h (k, w) (by simp), fun p hp => h p (by simp [hp])⟩

theorem watchesWellKeyed_insert {ws : Watches} (hws : watchesWellKeyed ws)
    {k : ManifestName} {w : DCLogWatch} (hk : k = w.name) :
    watchesWellKeyed (insertWatch ws k w) := by
  induction ws with
  | nil =>
    intro p hp
    simp [insertWatch] at hp
    subst hp
    exact hk
  | cons q rest ih =>
    obtain ⟨k2, w2⟩ := q
    obtain ⟨hq, hrest⟩ := watchesWellKeyed_cons hws
    by_cases h2 : k2 = k
    · subst h2
      intro p hp
      simp [insertWatch] at hp
      rcases hp with hp | hp
      · subst hp; exact hk
      · exact hrest p hp
    · intro p hp
      simp [insertWatch, h2] at hp
      rcases hp with hp | hp
      · subst hp; exact hq
      · exact ih hrest p hp

theorem mem_keys_insertWatch {ws : Watches} {k n : ManifestName} {w : DCLogWatch}
    (h : n ∈ (insertWatch ws k w).map Prod.fst) :
    n = k ∨ n ∈ ws.map Prod.fst := by
  induction ws with
  | nil =>
    simp [insertWatch] at h
    exact Or.inl h
  | cons q rest ih =>
    obtain ⟨k2, w2⟩ := q
    by_cases h2 : k2 = k
    · rw [show insertWatch ((k2, w2) :: rest) k w = (k, w) :: rest from by
          simp [insertWatch, h2]] at h
      rw [List.map_cons, List.mem_cons] at h
      rcases h with h | h
      · exact Or.inl h
      · exact Or.inr (by rw [List.map_cons, List.mem_cons]; exact Or.inr h)
    · rw [show insertWatch ((k2, w2) :: rest) k w = (k2, w2) :: insertWatch rest k w from by
          simp [insertWatch, h2]] at h
      rw [List.map_cons, List.mem_cons] at h
      rcases h with h | h
      · exact Or.inr (by rw [List.map_cons, List.mem_cons]; exact Or.inl h)
      · rcases ih h with h | h
        · exact Or.inl h
        · exact Or.inr (by rw [List.map_cons, List.mem_cons]; exact Or.inr h)

theorem nodup_keys_insertWatch {ws : Watches} {k : ManifestName} {w : DCLogWatch}
    (h : (ws.map Prod.fst).Nodup) :
    ((insertWatch ws k w).map Prod.fst).Nodup := by
  induction ws with
  | nil => simp [insertWatch]
  | cons q rest ih =>
    obtain ⟨k2, w2⟩ := q
    rw [List.map_cons, List.nodup_cons] at h
    obtain ⟨hk2, hrest⟩ := h
    by_cases h2 : k2 = k
    · rw [show insertWatch ((k2, w2) :: rest) k w = (k, w) :: rest from by
          simp [insertWatch, h2]]
      rw [List.map_cons, List.nodup_cons]
      exact ⟨h2 ▸ hk2, hrest⟩
    · rw [show insertWatch ((k2, w2) :: rest) k w = (k2, w2) :: insertWatch rest k w from by
          simp [insertWatch, h2]]
      rw [List.map_cons, List.nodup_cons]
      refine ⟨?_, ih hrest⟩
      intro hmem
      rcases mem_keys_insertWatch hmem with he | he
      · exact h2 he
      · exact hk2 he

theorem nodup_keys_eq {l : List (ManifestName × ManifestState)}
    (hnd : (l.map Prod.fst).Nodup) {k : ManifestName} {a b : ManifestState}
    (ha : (k, a) ∈ l) (hb : (k, b) ∈ l) : a = b := by
  induction l with
  | nil => cases ha
  | cons p rest ih =>
    rw [List.map_cons, List.nodup_cons] at hnd
    obtain ⟨hp, hrest⟩ := hnd
    rcases List.mem_cons.mp ha with ha | ha <;> rcases List.mem_cons.mp hb with hb | hb
    · rw [← ha] at hb
      injection hb with _ h2
      exact h2.symm
    · exfalso
      rw [← ha] at hp
      exact hp (List.mem_map.mpr ⟨(k, b), hb, rfl⟩)
    · exfalso
      rw [← hb] at hp
      exact hp (List.mem_map.mpr ⟨(k, a), ha, rfl⟩)
    · exact ih hrest ha hb

theorem filter_names_nil {n : ManifestName} :
    ∀ (s : List DCLogWatch), (∀ x ∈ s, x.name ≠ n) →
      s.filter (fun x => x.name == n) = [] := by
  intro s
  induction s with
  | nil => intro _; rfl
  | cons x rest ih =>
    intro hx
    have hxn : (x.name == n) = false := by
      rw [beq_eq_false_iff_ne]
      exact hx x (List.mem_cons_self x rest)
    simp only [List.filter, hxn]
    exact ih fun y hy => hx y (List.mem_cons_of_mem x hy)

theorem isPrefixOf_iff_append (pre : List Nat) :
    ∀ (l : List Nat), pre.isPrefixOf l = true ↔ ∃ rest, l = pre ++ rest := by
  induction pre with
  | nil =>
    intro l
    simp [List.isPrefixOf]
  | cons a as ih =>
    intro l
    cases l with
    | nil => simp [List.isPrefixOf]
    | cons b bs =>
      simp only [List.isPrefixOf, Bool.and_eq_true, beq_iff_eq, ih bs, List.cons_append,
        List.cons.injEq]
      constructor
      · rintro ⟨hab, rest, hrest⟩
        exact ⟨rest, hab.symm, hrest⟩
      · rintro ⟨rest, hba, hrest⟩
        exact ⟨hba.symm, rest, hrest⟩


/-! ### Lemmas about the setup loop -/

theorem diffSetup_skip_active {n : ManifestName} {w : DCLogWatch}
    (hact : w.ctxErr = false) :
    ∀ (l : List (ManifestName × ManifestState)) (ws : Watches)
      (s : List DCLogWatch) (ws2 : Watches),
      lookupWatch ws n = some w →
      diffSetup ws l = some (s, ws2) →
      lookupWatch ws2 n = some w ∧ ∀ x ∈ s, x.name ≠ n := by
  intro l
  induction l with
  | nil =>
    intro ws s ws2 hw h
    simp only [diffSetup, Option.some.injEq, Prod.mk.injEq] at h
    obtain ⟨h1, h2⟩ := h
    subst h1; subst h2
    exact ⟨hw, by simp⟩
  | cons p rest ih =>
    obtain ⟨k, ms⟩ := p
    intro ws s ws2 hw h
    simp only [diffSetup] at h
    by_cases hDC : ms.manifest.isDC = false
    · rw [if_pos hDC] at h
      exact ih ws s ws2 hw h
    · rw [if_neg hDC] at h
      split at h
      · exact ih ws s ws2 hw h
      · simp at h
      · rename_i t hdec
        have hne : ms.manifest.name ≠ n := by
          intro he
          rw [he] at hdec
          simp [decideWatch, hw, hact] at hdec
        split at h
        · simp at h
        · rename_i s' ws2' hrec
          simp only [Option.some.injEq, Prod.mk.injEq] at h
          obtain ⟨h1, h2⟩ := h
          subst h1; subst h2
          have hw' : lookupWatch (insertWatch ws ms.manifest.name (mkWatch ms.manifest t)) n
              = some w := by
            rw [lookupWatch_insertWatch, if_neg hne]; exact hw
          obtain ⟨hl, hs⟩ := ih _ s' ws2' hw' hrec
          refine ⟨hl, ?_⟩
          intro x hx
          rcases List.mem_cons.mp hx with hx | hx
          · subst hx; exact hne
          · exact hs x hx

theorem diffSetup_untouched {n : ManifestName} :
    ∀ (l : List (ManifestName × ManifestState)) (ws : Watches)
      (s : List DCLogWatch) (ws2 : Watches),
      (∀ p ∈ l, p.2.manifest.name = n → p.2.manifest.isDC = false) →
      diffSetup ws l = some (s, ws2) →
      lookupWatch ws2 n = lookupWatch ws n ∧ ∀ x ∈ s, x.name ≠ n := by
  intro l
  induction l with
  | nil =>
    intro ws s ws2 _ h
    simp only [diffSetup, Option.some.injEq, Prod.mk.injEq] at h
    obtain ⟨h1, h2⟩ := h
    subst h1; subst h2
    exact ⟨rfl, by simp⟩
  | cons p rest ih =>
    obtain ⟨k, ms⟩ := p
    intro ws s ws2 hnames h
    have hrest : ∀ p ∈ rest, p.2.manifest.name = n → p.2.manifest.isDC = false :=
      fun p hp => hnames p (List.mem_cons_of_mem _ hp)
    simp only [diffSetup] at h
    by_cases hDC : ms.manifest.isDC = false
    · rw [if_pos hDC] at h
      exact ih ws s ws2 hrest h
    · rw [if_neg hDC] at h
      have hne : ms.manifest.name ≠ n := by
        intro he
        exact hDC (hnames (k, ms) (List.mem_cons_self _ _) he)
      split at h
      · exact ih ws s ws2 hrest h
      · simp at h
      · rename_i t hdec
        split at h
        · simp at h
        · rename_i s' ws2' hrec
          simp only [Option.some.injEq, Prod.mk.injEq] at h
          obtain ⟨h1, h2⟩ := h
          subst h1; subst h2
          obtain ⟨hl, hs⟩ := ih _ s' ws2' hrest hrec
          refine ⟨?_, ?_⟩
          · rw [hl, lookupWatch_insertWatch, if_neg hne]
          · intro x hx
            rcases List.mem_cons.mp hx with hx | hx
            · subst hx; exact hne
            · exact hs x hx

theorem diffSetup_wellKeyed :
    ∀ (l : List (ManifestName × ManifestState)) (ws : Watches)
      (s : List DCLogWatch) (ws2 : Watches),
      watchesWellKeyed ws →
      diffSetup ws l = some (s, ws2) →
      watchesWellKeyed ws2 := by
  intro l
  induction l with
  | nil =>
    intro ws s ws2 hws h
    simp only [diffSetup, Option.some.injEq, Prod.mk.injEq] at h
    obtain ⟨h1, h2⟩ := h
    subst h2
    exact hws
  | cons p rest ih =>
    obtain ⟨k, ms⟩ := p
    intro ws s ws2 hws h
    simp only [diffSetup] at h
    by_cases hDC : ms.manifest.isDC = false
    · rw [if_pos hDC] at h
      exact ih ws s ws2 hws h
    · rw [if_neg hDC] at h
      split at h
      · exact ih ws s ws2 hws h
      · simp at h
      · rename_i t hdec
        split at h
        · simp at h
        · rename_i s' ws2' hrec
          simp only [Option.some.injEq, Prod.mk.injEq] at h
          obtain ⟨h1, h2⟩ := h
          subst h2
          exact ih (insertWatch ws ms.manifest.name (mkWatch ms.manifest t)) s' _
            (watchesWellKeyed_insert hws rfl) hrec

theorem diffSetup_nodupKeys :
    ∀ (l : List (ManifestName × ManifestState)) (ws : Watches)
      (s : List DCLogWatch) (ws2 : Watches),
      (ws.map Prod.fst).Nodup →
      diffSetup ws l = some (s, ws2) →
      (ws2.map Prod.fst).Nodup := by
  intro l
  induction l with
  | nil =>
    intro ws s ws2 hnd h
    simp only [diffSetup, Option.some.injEq, Prod.mk.injEq] at h
    obtain ⟨h1, h2⟩ := h
    subst h2
    exact hnd
  | cons p rest ih =>
    obtain ⟨k, ms⟩ := p
    intro ws s ws2 hnd h
    simp only [diffSetup] at h
    by_cases hDC : ms.manifest.isDC = false
    · rw [if_pos hDC] at h
      exact ih ws s ws2 hnd h
    · rw [if_neg hDC] at h
      split at h
      · exact ih ws s ws2 hnd h
      · simp at h
      · rename_i t hdec
        split at h
        · simp at h
        · rename_i s' ws2' hrec
          simp only [Option.some.injEq, Prod.mk.injEq] at h
          obtain ⟨h1, h2⟩ := h
          subst h2
          exact ih (insertWatch ws ms.manifest.name (mkWatch ms.manifest t)) s' _
            (nodup_keys_insertWatch hnd) hrec

theorem diffSetup_start {n : ManifestName} {T : Time} {ms : ManifestState}
    (hname : ms.manifest.name = n) (hdc : ms.manifest.isDC = true) :
    ∀ (l1 l2 : List (ManifestName × ManifestState)) (k : ManifestName) (ws : Watches)
      (s : List DCLogWatch) (ws2 : Watches),
      (∀ p ∈ l1, p.2.manifest.name ≠ n) →
      (∀ p ∈ l2, p.2.manifest.name ≠ n) →
      decideWatch ws n = .start T →
      diffSetup ws (l1 ++ (k, ms) :: l2) = some (s, ws2) →
      s.filter (fun x => x.name == n) = [mkWatch ms.manifest T] ∧
      lookupWatch ws2 n = some (mkWatch ms.manifest T) := by
  intro l1
  induction l1 with
  | nil =>
    intro l2 k ws s ws2 _ h2 hdec h
    rw [List.nil_append] at h
    simp only [diffSetup] at h
    rw [if_neg (by simp [hdc])] at h
    rw [hname] at h
    split at h
    · rename_i hdec'
      rw [hdec] at hdec'
      simp at hdec'
    · rename_i hdec'
      rw [hdec] at hdec'
      simp at hdec'
    · rename_i t hdec'
      rw [hdec] at hdec'
      injection hdec' with ht
      subst ht
      split at h
      · simp at h
      · rename_i s' ws2' hrec
        simp only [Option.some.injEq, Prod.mk.injEq] at h
        obtain ⟨hs, hw2⟩ := h
        subst hs; subst hw2
        have huntouched : ∀ p ∈ l2, p.2.manifest.name = n → p.2.manifest.isDC = false :=
          fun p hp he => absurd he (h2 p hp)
        obtain ⟨hl, hnames⟩ := diffSetup_untouched l2 _ s' ws2' huntouched hrec
        have hfresh : lookupWatch ws2' n = some (mkWatch ms.manifest T) := by
          rw [hl, lookupWatch_insertWatch, if_pos rfl]
        refine ⟨?_, hfresh⟩
        have hhd : ((mkWatch ms.manifest T).name == n) = true := by
          simp [mkWatch, hname]
        simp only [List.filter, hhd]
        rw [filter_names_nil s' hnames]
  | cons p l1' ih =>
    obtain ⟨k', ms'⟩ := p
    intro l2 k ws s ws2 h1 h2 hdec h
    have hne : ms'.manifest.name ≠ n := h1 (k', ms') (List.mem_cons_self _ _)
    have h1' : ∀ p ∈ l1', p.2.manifest.name ≠ n :=
      fun p hp => h1 p (List.mem_cons_of_mem _ hp)
    rw [List.cons_append] at h
    simp only [diffSetup] at h
    by_cases hDC : ms'.manifest.isDC = false
    · rw [if_pos hDC] at h
      exact ih l2 k ws s ws2 h1' h2 hdec h
    · rw [if_neg hDC] at h
      split at h
      · exact ih l2 k ws s ws2 h1' h2 hdec h
      · simp at h
      · rename_i t hdec'
        split at h
        · simp at h
        · rename_i s' ws2' hrec
          simp only [Option.some.injEq, Prod.mk.injEq] at h
          obtain ⟨hs, hw2⟩ := h
          subst hs; subst hw2
          have hdec2 : decideWatch (insertWatch ws ms'.manifest.name (mkWatch ms'.manifest t)) n
              = .start T := by
            rw [decideWatch_insert_ne _ _ _ _ hne, hdec]
          obtain ⟨hfil, hlook⟩ := ih l2 k _ s' ws2' h1' h2 hdec2 hrec
          refine ⟨?_, hlook⟩
          have hhd : ((mkWatch ms'.manifest t).name == n) = false := by
            simp [mkWatch]
            exact hne
          simp only [List.filter, hhd]
          exact hfil

/-! ### Lemmas about the teardown loop -/

theorem diffTeardown_lookup_kept {n : ManifestName} {keys : List ManifestName}
    (hmem : memName keys n = true) :
    ∀ (ws : Watches),
      lookupWatch (diffTeardown keys ws).2 n = lookupWatch ws n := by
  intro ws
  induction ws with
  | nil => rfl
  | cons p rest ih =>
    obtain ⟨k, w⟩ := p
    by_cases hk : memName keys k = true
    · rw [show diffTeardown keys ((k, w) :: rest)
          = ((diffTeardown keys rest).1, (k, w) :: (diffTeardown keys rest).2) from by
          simp [diffTeardown, hk]]
      simp only [lookupWatch]
      by_cases hkn : k = n
      · rw [if_pos hkn, if_pos hkn]
      · rw [if_neg hkn, if_neg hkn, ih]
    · have hkn : ¬ k = n := fun he => hk (he.symm ▸ hmem)
      rw [show diffTeardown keys ((k, w) :: rest)
          = (w :: (diffTeardown keys rest).1, (diffTeardown keys rest).2) from by
          simp [diffTeardown, hk]]
      simp only [lookupWatch]
      rw [if_neg hkn, ih]

theorem diffTeardown_mem_names {keys : List ManifestName} :
    ∀ (ws : Watches), watchesWellKeyed ws →
      ∀ x ∈ (diffTeardown keys ws).1, memName keys x.name = false := by
  intro ws
  induction ws with
  | nil => intro _ x hx; simp [diffTeardown] at hx
  | cons p rest ih =>
    obtain ⟨k, w⟩ := p
    intro hws x hx
    obtain ⟨hkw, hrest⟩ := watchesWellKeyed_cons hws
    by_cases hk : memName keys k = true
    · rw [show diffTeardown keys ((k, w) :: rest)
          = ((diffTeardown keys rest).1, (k, w) :: (diffTeardown keys rest).2) from by
          simp [diffTeardown, hk]] at hx
      exact ih hrest x hx
    · rw [show diffTeardown keys ((k, w) :: rest)
          = (w :: (diffTeardown keys rest).1, (diffTeardown keys rest).2) from by
          simp [diffTeardown, hk]] at hx
      rcases List.mem_cons.mp hx with hx | hx
      · subst hx
        rw [← hkw]
        cases hmn : memName keys k
        · rfl
        · exact absurd hmn hk
      · exact ih hrest x hx

theorem diffTeardown_no_key {n : ManifestName} {keys : List ManifestName} :
    ∀ (ws : Watches), watchesWellKeyed ws → (∀ p ∈ ws, p.1 ≠ n) →
      (diffTeardown keys ws).1.filter (fun x => x.name == n) = [] ∧
      lookupWatch (diffTeardown keys ws).2 n = none := by
  intro ws
  induction ws with
  | nil => intro _ _; exact ⟨rfl, rfl⟩
  | cons p rest ih =>
    obtain ⟨k, w⟩ := p
    intro hws hkeys
    obtain ⟨hkw, hrest⟩ := watchesWellKeyed_cons hws
    have hkn : k ≠ n := hkeys (k, w) (List.mem_cons_self _ _)
    have hkeys2 : ∀ p ∈ rest, p.1 ≠ n := fun p hp => hkeys p (List.mem_cons_of_mem _ hp)
    obtain ⟨ih1, ih2⟩ := ih hrest hkeys2
    by_cases hk : memName keys k = true
    · rw [show diffTeardown keys ((k, w) :: rest)
          = ((diffTeardown keys rest).1, (k, w) :: (diffTeardown keys rest).2) from by
          simp [diffTeardown, hk]]
      refine ⟨ih1, ?_⟩
      simp only [lookupWatch]
      rw [if_neg hkn]
      exact ih2
    · rw [show diffTeardown keys ((k, w) :: rest)
          = (w :: (diffTeardown keys rest).1, (diffTeardown keys rest).2) from by
          simp [diffTeardown, hk]]
      refine ⟨?_, ih2⟩
      have hwn : (w.name == n) = false := by
        rw [beq_eq_false_iff_ne, ← hkw]
        exact hkn
      simp only [List.filter, hwn]
      exact ih1

theorem diffTeardown_removed {n : ManifestName} {w : DCLogWatch} {keys : List ManifestName}
    (habs : memName keys n = false) :
    ∀ (ws : Watches), watchesWellKeyed ws → (ws.map Prod.fst).Nodup →
      lookupWatch ws n = some w →
      (diffTeardown keys ws).1.filter (fun x => x.name == n) = [w] ∧
      lookupWatch (diffTeardown keys ws).2 n = none := by
  intro ws
  induction ws with
  | nil => intro _ _ hl; simp [lookupWatch] at hl
  | cons p rest ih =>
    obtain ⟨k, v⟩ := p
    intro hws hnd hl
    obtain ⟨hkv, hrest⟩ := watchesWellKeyed_cons hws
    rw [List.map_cons, List.nodup_cons] at hnd
    obtain ⟨hknd, hndrest⟩ := hnd
    by_cases hkn : k = n
    · subst hkn
      simp only [lookupWatch] at hl
      simp only [if_pos trivial] at hl
      injection hl with hv
      subst hv
      have hk : ¬ memName keys k = true := by rw [habs]; simp
      rw [show diffTeardown keys ((k, v) :: rest)
          = (v :: (diffTeardown keys rest).1, (diffTeardown keys rest).2) from by
          simp [diffTeardown, hk]]
      have hkeys2 : ∀ p ∈ rest, p.1 ≠ k := by
        intro p hp he
        exact hknd (he ▸ List.mem_map.mpr ⟨p, hp, rfl⟩)
      obtain ⟨h1, h2⟩ := diffTeardown_no_key rest hrest hkeys2
      refine ⟨?_, h2⟩
      have hvn : (v.name == k) = true := by
        rw [beq_iff_eq]
        exact hkv.symm
      simp only [List.filter, hvn]
      rw [h1]
    · simp only [lookupWatch] at hl
      rw [if_neg hkn] at hl
      obtain ⟨ih1, ih2⟩ := ih hrest hndrest hl
      by_cases hk : memName keys k = true
      · rw [show diffTeardown keys ((k, v) :: rest)
            = ((diffTeardown keys rest).1, (k, v) :: (diffTeardown keys rest).2) from by
            simp [diffTeardown, hk]]
        refine ⟨ih1, ?_⟩
        simp only [lookupWatch]
        rw [if_neg hkn]
        exact ih2
      · rw [show diffTeardown keys ((k, v) :: rest)
            = (v :: (diffTeardown keys rest).1, (diffTeardown keys rest).2) from by
            simp [diffTeardown, hk]]
        refine ⟨?_, ih2⟩
        have hvn : (v.name == n) = false := by
          rw [beq_eq_false_iff_ne, ← hkv]
          exact hkn
        simp only [List.filter, hvn]
        exact ih1

/-! ### Unfolding `diff` and key-membership conversions -/

theorem memName_eq_true {keys : List ManifestName} {n : ManifestName}
    (h : n ∈ keys) : memName keys n = true :=
  (memName_iff keys n).mpr h

theorem memName_eq_false {keys : List ManifestName} {n : ManifestName}
    (h : n ∉ keys) : memName keys n = false := by
  cases hm : memName keys n
  · rfl
  · exact absurd ((memName_iff keys n).mp hm) h

theorem diff_enabled {st : EngineState} {ws : Watches} {r : DiffResult}
    (hwm : st.watchMounts = true) (h : diff st ws = some r) :
    ∃ s ws2, diffSetup ws st.manifestStates = some (s, ws2) ∧
      r.setup = s ∧
      r.teardown = (diffTeardown (st.manifestStates.map Prod.fst) ws2).1 ∧
      r.watches = (diffTeardown (st.manifestStates.map Prod.fst) ws2).2 := by
  simp only [diff] at h
  rw [if_neg (by simp [hwm])] at h
  split at h
  · simp at h
  · rename_i s ws2 hset
    simp only [Option.some.injEq] at h
    refine ⟨s, ws2, hset, ?_, ?_, ?_⟩ <;> rw [← h]

theorem names_split {l : List (ManifestName × ManifestState)} {n : ManifestName}
    {ms : ManifestState}
    (hsk : statesWellKeyed l) (hnd : (l.map Prod.fst).Nodup)
    (hmem : (n, ms) ∈ l) :
    ∃ l1 l2, l = l1 ++ (n, ms) :: l2 ∧
      (∀ p ∈ l1, p.2.manifest.name ≠ n) ∧ (∀ p ∈ l2, p.2.manifest.name ≠ n) := by
  obtain ⟨l1, l2, hsplit⟩ := List.append_of_mem hmem
  subst hsplit
  refine ⟨l1, l2, rfl, ?_, ?_⟩
  · intro p hp he
    have hp1 : p.1 = n := by
      rw [hsk p (List.mem_append.mpr (Or.inl hp))]
      exact he
    rw [List.map_append, List.map_cons, List.nodup_append] at hnd
    exact hnd.2.2 (hp1 ▸ List.mem_map.mpr ⟨p, hp, rfl⟩) (List.mem_cons_self _ _)
  · intro p hp he
    have hp1 : p.1 = n := by
      rw [hsk p (List.mem_append.mpr (Or.inr (List.mem_cons_of_mem _ hp)))]
      exact he
    rw [List.map_append, List.map_cons, List.nodup_append] at hnd
    have hcons := hnd.2.1
    rw [List.nodup_cons] at hcons
    exact hcons.1 (hp1 ▸ List.mem_map.mpr ⟨p, hp, rfl⟩)

theorem suffix_after_launch :
    ∀ (A B pre rest : List LogManagerEvent) (e1 : LogManagerEvent),
      (∀ e ∈ A, e.isLaunch = false) →
      A ++ B = pre ++ e1 :: rest →
      e1.isLaunch = true →
      ∀ e ∈ rest, e ∈ B := by
  intro A
  induction A with
  | nil =>
    intro B pre rest e1 _ heq _ e he
    rw [List.nil_append] at heq
    rw [heq]
    exact List.mem_append.mpr (Or.inr (List.mem_cons_of_mem _ he))
  | cons a A2 ih =>
    intro B pre rest e1 hA heq hl
    cases pre with
    | nil =>
      rw [List.nil_append] at heq
      rw [List.cons_append] at heq
      injection heq with h1 h2
      rw [← h1] at hl
      rw [hA a (List.mem_cons_self _ _)] at hl
      exact absurd hl (by simp)
    | cons p pre2 =>
      rw [List.cons_append, List.cons_append] at heq
      injection heq with h1 h2
      exact ih B pre2 rest e1 (fun e he => hA e (List.mem_cons_of_mem _ he)) h2 hl

/-! ### The claims -/

/-- C3: If the global watching flag (`WatchMounts`) is false, `diff` returns
two empty (nil) setup and teardown lists regardless of the active map's
contents, and the active map is left completely unchanged. -/
theorem c3_watching_disabled (st : EngineState) (ws : Watches)
    (hwm : st.watchMounts = false) :
    diff st ws = some ⟨[], [], ws⟩ := by
  simp [diff, hwm]

theorem c3_watching_disabled_witness :
    diff ⟨false, [("a", ⟨⟨"a", true, ⟨"dc.yml"⟩⟩⟩)]⟩ [("b", ⟨true, "b", "p", 3, some 9⟩)]
      = some ⟨[], [], [("b", ⟨true, "b", "p", 3, some 9⟩)]⟩ :=
  c3_watching_disabled ⟨false, [("a", ⟨⟨"a", true, ⟨"dc.yml"⟩⟩⟩)]⟩
    [("b", ⟨true, "b", "p", 3, some 9⟩)] rfl

/-- C1: Resume continuity: for every watch record in the active map whose task
has exited and sent stop time `T` on its `stopSignal` channel
(`ctxErr = true`, `terminationTime = some T`), the next `diff` call that
decides to restart that source creates a new watch record — placed in `setup`
and stored in the map — whose `resumeFrom` (`startWatchTime`) equals `T`. -/
theorem c1_resume_continuity
    (st : EngineState) (ws : Watches) (n : ManifestName) (ms : ManifestState)
    (w : DCLogWatch) (T : Time) (r : DiffResult)
    (hwm : st.watchMounts = true)
    (hsk : statesWellKeyed st.manifestStates)
    (hnd : (st.manifestStates.map Prod.fst).Nodup)
    (hmem : (n, ms) ∈ st.manifestStates)
    (hdc : ms.manifest.isDC = true)
    (hw : lookupWatch ws n = some w)
    (hstopped : w.ctxErr = true)
    (hsent : w.terminationTime = some T)
    (hr : diff st ws = some r) :
    r.setup.filter (fun x => x.name == n) = [mkWatch ms.manifest T] ∧
    lookupWatch r.watches n = some (mkWatch ms.manifest T) ∧
    (mkWatch ms.manifest T).startWatchTime = T := by
  have hname : ms.manifest.name = n := (hsk (n, ms) hmem).symm
  obtain ⟨l1, l2, hsplit, h1, h2⟩ := names_split hsk hnd hmem
  have hdec : decideWatch ws n = .start T := by
    simp [decideWatch, hw, hstopped, hsent]
  obtain ⟨s, ws2, hset, hrs, hrt, hrw⟩ := diff_enabled hwm hr
  rw [hsplit] at hset
  obtain ⟨hfil, hlook⟩ := diffSetup_start hname hdc l1 l2 n ws s ws2 h1 h2 hdec hset
  have hkmem : memName (st.manifestStates.map Prod.fst) n = true := by
    apply memName_eq_true
    rw [hsplit]
    simp
  refine ⟨by rw [hrs]; exact hfil, ?_, rfl⟩
  rw [hrw, diffTeardown_lookup_kept hkmem ws2]
  exact hlook

theorem c1_resume_continuity_witness :
    (DiffResult.setup ⟨[mkWatch ⟨"a", true, ⟨"p2"⟩⟩ 42], [],
        [("a", mkWatch ⟨"a", true, ⟨"p2"⟩⟩ 42)]⟩).filter (fun x => x.name == "a")
      = [mkWatch ⟨"a", true, ⟨"p2"⟩⟩ 42] ∧
    lookupWatch (DiffResult.watches ⟨[mkWatch ⟨"a", true, ⟨"p2"⟩⟩ 42], [],
        [("a", mkWatch ⟨"a", true, ⟨"p2"⟩⟩ 42)]⟩) "a"
      = some (mkWatch ⟨"a", true, ⟨"p2"⟩⟩ 42) ∧
    (mkWatch ⟨"a", true, ⟨"p2"⟩⟩ 42).startWatchTime = 42 :=
  c1_resume_continuity ⟨true, [("a", ⟨⟨"a", true, ⟨"p2"⟩⟩⟩)]⟩
    [("a", ⟨true, "a", "p", 5, some 42⟩)] "a" ⟨⟨"a", true, ⟨"p2"⟩⟩⟩
    ⟨true, "a", "p", 5, some 42⟩ 42
    ⟨[mkWatch ⟨"a", true, ⟨"p2"⟩⟩ 42], [], [("a", mkWatch ⟨"a", true, ⟨"p2"⟩⟩ 42)]⟩
    rfl (by decide) (by decide) (by decide) rfl (by decide) rfl rfl (by decide)

/-- C4: For every source present in the desired state (a docker-compose
manifest, watching enabled) and absent from the active watch map, `diff`
places exactly one entry for that source in `setup`, with `resumeFrom` equal
to the epoch, and inserts the same record into the active map. -/
theorem c4_new_source
    (st : EngineState) (ws : Watches) (n : ManifestName) (ms : ManifestState)
    (r : DiffResult)
    (hwm : st.watchMounts = true)
    (hsk : statesWellKeyed st.manifestStates)
    (hnd : (st.manifestStates.map Prod.fst).Nodup)
    (hmem : (n, ms) ∈ st.manifestStates)
    (hdc : ms.manifest.isDC = true)
    (hw : lookupWatch ws n = none)
    (hr : diff st ws = some r) :
    r.setup.filter (fun x => x.name == n) = [mkWatch ms.manifest epoch] ∧
    lookupWatch r.watches n = some (mkWatch ms.manifest epoch) ∧
    (mkWatch ms.manifest epoch).startWatchTime = epoch := by
  have hname : ms.manifest.name = n := (hsk (n, ms) hmem).symm
  obtain ⟨l1, l2, hsplit, h1, h2⟩ := names_split hsk hnd hmem
  have hdec : decideWatch ws n = .start epoch := by
    simp [decideWatch, hw]
  obtain ⟨s, ws2, hset, hrs, hrt, hrw⟩ := diff_enabled hwm hr
  rw [hsplit] at hset
  obtain ⟨hfil, hlook⟩ := diffSetup_start hname hdc l1 l2 n ws s ws2 h1 h2 hdec hset
  have hkmem : memName (st.manifestStates.map Prod.fst) n = true := by
    apply memName_eq_true
    rw [hsplit]
    simp
  refine ⟨by rw [hrs]; exact hfil, ?_, rfl⟩
  rw [hrw, diffTeardown_lookup_kept hkmem ws2]
  exact hlook

theorem c4_new_source_witness :
    (DiffResult.setup ⟨[mkWatch ⟨"a", true, ⟨"dc.yml"⟩⟩ epoch], [],
        [("a", mkWatch ⟨"a", true, ⟨"dc.yml"⟩⟩ epoch)]⟩).filter (fun x => x.name == "a")
      = [mkWatch ⟨"a", true, ⟨"dc.yml"⟩⟩ epoch] ∧
    lookupWatch (DiffResult.watches ⟨[mkWatch ⟨"a", true, ⟨"dc.yml"⟩⟩ epoch], [],
        [("a", mkWatch ⟨"a", true, ⟨"dc.yml"⟩⟩ epoch)]⟩) "a"
      = some (mkWatch ⟨"a", true, ⟨"dc.yml"⟩⟩ epoch) ∧
    (mkWatch ⟨"a", true, ⟨"dc.yml"⟩⟩ epoch).startWatchTime = epoch :=
  c4_new_source ⟨true, [("a", ⟨⟨"a", true, ⟨"dc.yml"⟩⟩⟩)]⟩ [] "a"
    ⟨⟨"a", true, ⟨"dc.yml"⟩⟩⟩
    ⟨[mkWatch ⟨"a", true, ⟨"dc.yml"⟩⟩ epoch], [], [("a", mkWatch ⟨"a", true, ⟨"dc.yml"⟩⟩ epoch)]⟩
    rfl (by decide) (by decide) (by decide) rfl rfl (by decide)

/-- C5: Idempotence: for every source that already has an active watch record
whose task has not terminated (`ctxErr = false`), a subsequent `diff` call in
which the source remains desired places that source in neither `setup` nor
`teardown`, and its record stays in the map unchanged. -/
theorem c5_idempotent
    (st : EngineState) (ws : Watches) (n : ManifestName) (w : DCLogWatch)
    (r : DiffResult)
    (hws : watchesWellKeyed ws)
    (hdesired : n ∈ st.manifestStates.map Prod.fst)
    (hw : lookupWatch ws n = some w)
    (hact : w.ctxErr = false)
    (hr : diff st ws = some r) :
    (∀ x ∈ r.setup, x.name ≠ n) ∧ (∀ x ∈ r.teardown, x.name ≠ n) ∧
    lookupWatch r.watches n = some w := by
  by_cases hwm : st.watchMounts = false
  · simp only [diff, if_pos hwm, Option.some.injEq] at hr
    rw [← hr]
    exact ⟨by simp, by simp, hw⟩
  · have hwm2 : st.watchMounts = true := by
      cases h2 : st.watchMounts
      · exact absurd h2 hwm
      · rfl
    obtain ⟨s, ws2, hset, hrs, hrt, hrw⟩ := diff_enabled hwm2 hr
    obtain ⟨hlook2, hsetup⟩ := diffSetup_skip_active hact st.manifestStates ws s ws2 hw hset
    have hws2 : watchesWellKeyed ws2 := diffSetup_wellKeyed _ _ _ _ hws hset
    have hkmem : memName (st.manifestStates.map Prod.fst) n = true := memName_eq_true hdesired
    refine ⟨by rw [hrs]; exact hsetup, ?_, ?_⟩
    · intro x hx he
      have := diffTeardown_mem_names ws2 hws2 x (by rw [← hrt]; exact hx)
      rw [he, hkmem] at this
      exact absurd this (by simp)
    · rw [hrw, diffTeardown_lookup_kept hkmem ws2]
      exact hlook2

theorem c5_idempotent_witness :
    (∀ x ∈ (DiffResult.setup ⟨[], [], [("a", ⟨false, "a", "dc.yml", 7, none⟩)]⟩),
        x.name ≠ "a") ∧
    (∀ x ∈ (DiffResult.teardown ⟨[], [], [("a", ⟨false, "a", "dc.yml", 7, none⟩)]⟩),
        x.name ≠ "a") ∧
    lookupWatch (DiffResult.watches ⟨[], [], [("a", ⟨false, "a", "dc.yml", 7, none⟩)]⟩) "a"
      = some ⟨false, "a", "dc.yml", 7, none⟩ :=
  c5_idempotent ⟨true, [("a", ⟨⟨"a", true, ⟨"dc.yml"⟩⟩⟩)]⟩
    [("a", ⟨false, "a", "dc.yml", 7, none⟩)] "a" ⟨false, "a", "dc.yml", 7, none⟩
    ⟨[], [], [("a", ⟨false, "a", "dc.yml", 7, none⟩)]⟩
    (by decide) (by decide) (by decide) rfl (by decide)

/-- C9: For every active watch whose manifest is still present in the state's
manifest map but is not (or is no longer) a docker-compose manifest, `diff`
leaves the watch record untouched: it appears in neither `setup` nor
`teardown` and remains in the active map with all fields unchanged. -/
theorem c9_non_dc_untouched
    (st : EngineState) (ws : Watches) (n : ManifestName) (ms : ManifestState)
    (w : DCLogWatch) (r : DiffResult)
    (hws : watchesWellKeyed ws)
    (hsk : statesWellKeyed st.manifestStates)
    (hnd : (st.manifestStates.map Prod.fst).Nodup)
    (hmem : (n, ms) ∈ st.manifestStates)
    (hndc : ms.manifest.isDC = false)
    (hw : lookupWatch ws n = some w)
    (hr : diff st ws = some r) :
    (∀ x ∈ r.setup, x.name ≠ n) ∧ (∀ x ∈ r.teardown, x.name ≠ n) ∧
    lookupWatch r.watches n = some w := by
  by_cases hwm : st.watchMounts = false
  · simp only [diff, if_pos hwm, Option.some.injEq] at hr
    rw [← hr]
    exact ⟨by simp, by simp, hw⟩
  · have hwm2 : st.watchMounts = true := by
      cases h2 : st.watchMounts
      · exact absurd h2 hwm
      · rfl
    obtain ⟨s, ws2, hset, hrs, hrt, hrw⟩ := diff_enabled hwm2 hr
    have huntouched : ∀ p ∈ st.manifestStates,
        p.2.manifest.name = n → p.2.manifest.isDC = false := by
      intro p hp he
      have hp1 : p.1 = n := by rw [hsk p hp]; exact he
      have hpmem : (n, p.2) ∈ st.manifestStates := by
        rw [← hp1]
        exact hp
      have hpms : p.2 = ms := nodup_keys_eq hnd hpmem hmem
      rw [hpms]
      exact hndc
    obtain ⟨hlook2, hsetup⟩ := diffSetup_untouched st.manifestStates ws s ws2 huntouched hset
    have hws2 : watchesWellKeyed ws2 := diffSetup_wellKeyed _ _ _ _ hws hset
    have hkmem : memName (st.manifestStates.map Prod.fst) n = true :=
      memName_eq_true (List.mem_map.mpr ⟨(n, ms), hmem, rfl⟩)
    refine ⟨by rw [hrs]; exact hsetup, ?_, ?_⟩
    · intro x hx he
      have := diffTeardown_mem_names ws2 hws2 x (by rw [← hrt]; exact hx)
      rw [he, hkmem] at this
      exact absurd this (by simp)
    · rw [hrw, diffTeardown_lookup_kept hkmem ws2, hlook2]
      exact hw

theorem c9_non_dc_untouched_witness :
    (∀ x ∈ (DiffResult.setup ⟨[], [], [("a", ⟨false, "a", "dc.yml", 7, none⟩)]⟩),
        x.name ≠ "a") ∧
    (∀ x ∈ (DiffResult.teardown ⟨[], [], [("a", ⟨false, "a", "dc.yml", 7, none⟩)]⟩),
        x.name ≠ "a") ∧
    lookupWatch (DiffResult.watches ⟨[], [], [("a", ⟨false, "a", "dc.yml", 7, none⟩)]⟩) "a"
      = some ⟨false, "a", "dc.yml", 7, none⟩ :=
  c9_non_dc_untouched ⟨true, [("a", ⟨⟨"a", false, ⟨""⟩⟩⟩)]⟩
    [("a", ⟨false, "a", "dc.yml", 7, none⟩)] "a" ⟨⟨"a", false, ⟨""⟩⟩⟩
    ⟨false, "a", "dc.yml", 7, none⟩
    ⟨[], [], [("a", ⟨false, "a", "dc.yml", 7, none⟩)]⟩
    (by decide) (by decide) (by decide) (by decide) rfl (by decide) (by decide)

/-- C2 counterexample: with watching enabled, an active watch for `"a"` whose
manifest is present in the manifest map but is not a docker-compose manifest:
`"a"` is then absent from the desired-source snapshot in the claim's sense
(the docker-compose manifests), yet `diff` produces an empty teardown list and
leaves the watch in the active map. -/
theorem c2_counterexample :
    (([("a", (⟨⟨"a", false, ⟨""⟩⟩⟩ : ManifestState))].filter
        (fun p => p.2.manifest.isDC)) = []) ∧
    diff ⟨true, [("a", ⟨⟨"a", false, ⟨""⟩⟩⟩)]⟩ [("a", ⟨false, "a", "dc.yml", 0, none⟩)]
      = some ⟨[], [], [("a", ⟨false, "a", "dc.yml", 0, none⟩)]⟩ := by
  constructor
  · decide
  · decide

/-- C2 (amended): for every active watch whose name is absent from the state's
manifest map altogether (docker-compose or not), with watching enabled, `diff`
places exactly one entry for that watch in `teardown` and removes it from the
active map. -/
theorem c2_teardown_removed
    (st : EngineState) (ws : Watches) (n : ManifestName) (w : DCLogWatch)
    (r : DiffResult)
    (hwm : st.watchMounts = true)
    (hws : watchesWellKeyed ws)
    (hnd : (ws.map Prod.fst).Nodup)
    (hsk : statesWellKeyed st.manifestStates)
    (hw : lookupWatch ws n = some w)
    (habs : n ∉ st.manifestStates.map Prod.fst)
    (hr : diff st ws = some r) :
    r.teardown.filter (fun x => x.name == n) = [w] ∧
    lookupWatch r.watches n = none := by
  obtain ⟨s, ws2, hset, hrs, hrt, hrw⟩ := diff_enabled hwm hr
  have huntouched : ∀ p ∈ st.manifestStates,
      p.2.manifest.name = n → p.2.manifest.isDC = false := by
    intro p hp he
    exfalso
    apply habs
    rw [← hsk p hp] at he
    exact he ▸ List.mem_map.mpr ⟨p, hp, rfl⟩
  obtain ⟨hlook, _⟩ := diffSetup_untouched st.manifestStates ws s ws2 huntouched hset
  have hw2 : lookupWatch ws2 n = some w := by rw [hlook]; exact hw
  have hws2 : watchesWellKeyed ws2 := diffSetup_wellKeyed _ _ _ _ hws hset
  have hnd2 : (ws2.map Prod.fst).Nodup := diffSetup_nodupKeys _ _ _ _ hnd hset
  have habs2 : memName (st.manifestStates.map Prod.fst) n = false := memName_eq_false habs
  obtain ⟨h1, h2⟩ := diffTeardown_removed habs2 ws2 hws2 hnd2 hw2
  exact ⟨by rw [hrt]; exact h1, by rw [hrw]; exact h2⟩

theorem c2_teardown_removed_witness :
    (DiffResult.teardown ⟨[], [⟨false, "a", "p", 0, none⟩], []⟩).filter
        (fun x => x.name == "a") = [⟨false, "a", "p", 0, none⟩] ∧
    lookupWatch (DiffResult.watches ⟨[], [⟨false, "a", "p", 0, none⟩], []⟩) "a" = none :=
  c2_teardown_removed ⟨true, []⟩ [("a", ⟨false, "a", "p", 0, none⟩)] "a"
    ⟨false, "a", "p", 0, none⟩ ⟨[], [⟨false, "a", "p", 0, none⟩], []⟩
    rfl (by decide) (by decide) (by decide) (by decide) (by decide) (by decide)

/-- C6: Within one reconciliation call (`OnChange`), every teardown entry's
cancellation handle is invoked before any new streaming task for a setup
entry is launched: in the event trace, no cancellation ever occurs after a
launch. -/
theorem c6_cancel_before_launch
    (st : EngineState) (ws : Watches) (tr : List LogManagerEvent) (wsAfter : Watches)
    (h : onChange st ws = some (tr, wsAfter)) :
    ∀ (pre mid post : List LogManagerEvent) (e1 e2 : LogManagerEvent),
      tr = pre ++ e1 :: mid ++ e2 :: post →
      e1.isLaunch = true → e2.isCancel = false := by
  simp only [onChange] at h
  split at h
  · simp at h
  · rename_i r hdiff
    simp only [Option.some.injEq, Prod.mk.injEq] at h
    obtain ⟨htr, hws⟩ := h
    intro pre mid post e1 e2 heq hl
    have hA : ∀ e ∈ r.teardown.map (fun w => LogManagerEvent.cancelWatch w.name),
        e.isLaunch = false := by
      intro e he
      obtain ⟨x, _, hx⟩ := List.mem_map.mp he
      rw [← hx]
      rfl
    have hB : ∀ e ∈ r.setup.map (fun w => LogManagerEvent.launchTask w.name),
        e.isCancel = false := by
      intro e he
      obtain ⟨x, _, hx⟩ := List.mem_map.mp he
      rw [← hx]
      rfl
    have heq2 : r.teardown.map (fun w => LogManagerEvent.cancelWatch w.name) ++
        r.setup.map (fun w => LogManagerEvent.launchTask w.name)
        = pre ++ e1 :: (mid ++ e2 :: post) := by
      rw [htr, heq]
      simp
    have he2B := suffix_after_launch _ _ pre (mid ++ e2 :: post) e1 hA heq2 hl e2
      (List.mem_append.mpr (Or.inr (List.mem_cons_self _ _)))
    exact hB e2 he2B

theorem c6_cancel_before_launch_witness :
    (LogManagerEvent.launchTask "c").isCancel = false :=
  c6_cancel_before_launch
    ⟨true, [("a", ⟨⟨"a", true, ⟨"p"⟩⟩⟩), ("c", ⟨⟨"c", true, ⟨"q"⟩⟩⟩)]⟩ []
    [.launchTask "a", .launchTask "c"]
    [("a", mkWatch ⟨"a", true, ⟨"p"⟩⟩ epoch), ("c", mkWatch ⟨"c", true, ⟨"q"⟩⟩ epoch)]
    (by decide) [] [] [] (.launchTask "a") (.launchTask "c") rfl rfl

/-- C7: The log filter (`shouldFilterDCLog`) returns true exactly for the byte
chunks that begin with the known noise banner `"Attaching to "`, and a chunk
the filter accepts is passed through unchanged by both writers (the global
writer forwards the chunk itself; the action writer dispatches a copy of it). -/
theorem c7_filter_noise (p : List Nat) (sink : List Nat → Nat × Option String)
    (nm : ManifestName) :
    (shouldFilterDCLog p = true ↔ ∃ rest, p = attachingToBytes ++ rest) ∧
    (globalWriterWrite sink p).2 = (if shouldFilterDCLog p then none else some p) ∧
    (actionWriterWrite nm p).2 =
      (if shouldFilterDCLog p then none else some ⟨nm, [] ++ p⟩) := by
  refine ⟨?_, ?_, ?_⟩
  · rw [show shouldFilterDCLog p = attachingToBytes.isPrefixOf p from by
        simp only [shouldFilterDCLog]
        cases h : attachingToBytes.isPrefixOf p <;> rfl]
    exact isPrefixOf_iff_append attachingToBytes p
  · by_cases hf : shouldFilterDCLog p = true <;>
      simp [globalWriterWrite, hf]
  · by_cases hf : shouldFilterDCLog p = true <;>
      simp [actionWriterWrite, hf]

/-- C8: For every input chunk that the filter rejects, both output writers
return `n` equal to the full length of the input and a nil error, without
invoking their downstream sink (the display writer or the store dispatcher). -/
theorem c8_filtered_write (p : List Nat) (nm : ManifestName)
    (sink : List Nat → Nat × Option String)
    (hf : shouldFilterDCLog p = true) :
    actionWriterWrite nm p = ((p.length, none), none) ∧
    globalWriterWrite sink p = ((p.length, none), none) := by
  constructor
  · simp [actionWriterWrite, hf]
  · simp [globalWriterWrite, hf]

theorem c8_filtered_write_witness :
    shouldFilterDCLog ("Attaching to x".toList.map Char.toNat) = true ∧
    (actionWriterWrite "svc" ("Attaching to x".toList.map Char.toNat)
        = ((("Attaching to x".toList.map Char.toNat).length, none), none) ∧
      globalWriterWrite (fun l => (l.length, none)) ("Attaching to x".toList.map Char.toNat)
        = ((("Attaching to x".toList.map Char.toNat).length, none), none)) :=
  ⟨by decide,
    c8_filtered_write ("Attaching to x".toList.map Char.toNat) "svc"
      (fun l => (l.length, none)) (by decide)⟩

/-- C10: An empty byte chunk is never filtered: `shouldFilterDCLog` returns
false on empty input, the action writer dispatches an event carrying an empty
log and returns `(0, nil)`, and the global writer forwards the empty chunk to
the display sink. -/
theorem c10_empty_chunk (nm : ManifestName) (sink : List Nat → Nat × Option String) :
    shouldFilterDCLog [] = false ∧
    actionWriterWrite nm [] = ((0, none), some ⟨nm, []⟩) ∧
    globalWriterWrite sink [] = (sink [], some []) := by
  refine ⟨by decide, ?_, ?_⟩
  · simp [actionWriterWrite, shouldFilterDCLog, attachingToBytes]
  · simp [globalWriterWrite, shouldFilterDCLog, attachingToBytes]
